import Mathlib

/-!
# Verification of the autoCrack orchestrator core

Shallow embedding of `autoCrack.py`: a persistent dedup ledger keyed by
`(hash, mode_id)`, the per-mode pending-set computation, the per-mode
attempt/extract protocol against an external cracking tool, and the
end-of-run summary.

Modelling conventions:
* Python strings are Lean `String`s; the Python string operations used by
  the program (`strip`, `splitlines`, `split(":", 1)`, `startswith`,
  `in`) are implemented on the underlying character list so that they
  reduce in the kernel.
* The external tool (`hashcat` subprocesses) is an oracle: a pair of
  functions giving, per `(mode_id, pending hashes)`, the attack exit
  status and the stdout of the `--show` call.  The enumeration call's
  parsed candidate list is likewise part of the environment.
* The filesystem ledger is a `LedgerDisk` value: missing file, content
  whose JSON parse or field extraction raises (`malformed`), or a
  well-formed record list.
-/

namespace AutoCrack

/-- Python `str.strip` on the character list: drop whitespace from both ends. -/
def stripData (cs : List Char) : List Char :=
  ((cs.dropWhile Char.isWhitespace).reverse.dropWhile Char.isWhitespace).reverse

/-- Python `str.strip` on a `String`. -/
def pyStrip (s : String) : String :=
  ⟨stripData s.data⟩

/-- Split a character list at newline characters (Python `str.splitlines`
for newline-terminated text; the program's inputs use `\n`). -/
def splitLinesData : List Char → List Char → List (List Char)
  | [], acc => [acc]
  | c :: rest, acc =>
    if c = '\n' then acc :: splitLinesData rest []
    else splitLinesData rest (acc ++ [c])

/-- Line splitting on a `String`. -/
def pySplitLines (s : String) : List String :=
  (splitLinesData s.data []).map fun cs => ⟨cs⟩

/-- Python `":" in line`. -/
def containsColon (s : String) : Bool :=
  s.data.contains ':'

/-- Python `line.split(":", 1)`: the part before the first colon and the
part after it (only used on lines that contain a colon). -/
def splitColonOnce (s : String) : String × String :=
  (⟨s.data.takeWhile (fun c => c != ':')⟩,
   ⟨(s.data.dropWhile (fun c => c != ':')).drop 1⟩)

/-- Python `line.startswith "#"` for the single-character marker. -/
def isCommentLine (s : String) : Bool :=
  match s.data with
  | c :: _ => c = '#'
  | [] => false

/-- One record of `crack_log.json`:
`{ "hash": ..., "mode_id": ..., "clear": ..., "timestamp": ... }`. -/
structure LogEntry where
  hash : String
  mode_id : String
  clear : String
  timestamp : String
deriving DecidableEq, Repr

/-- The `(hash, mode_id)` membership key of a log entry. -/
def key (e : LogEntry) : String × String :=
  (e.hash, e.mode_id)

/-- The on-disk state of `crack_log.json`.  `malformed` stands for any
content on which `json.load` or the per-entry field extraction raises
(caught by the bare `except Exception` in `load_log_entries`). -/
inductive LedgerDisk where
  | missing
  | malformed
  | records (es : List LogEntry)
deriving DecidableEq, Repr

/-- `load_log_entries`: returns the `(hash, mode_id)` keys (Python builds a
set; only membership is ever queried, so a key list is equivalent) and the
full entry list.  Missing file or any parse failure yields the empty log. -/
def load_log_entries : LedgerDisk → List (String × String) × List LogEntry
  | LedgerDisk.records es => (es.map key, es)
  | _ => ([], [])

/-- `append_log`: append one entry to the in-memory list and rewrite the
whole file.  Returns the new list and the new disk state. -/
def append_log (entries_list : List LogEntry) (entry : LogEntry) :
    List LogEntry × LedgerDisk :=
  (entries_list ++ [entry], LedgerDisk.records (entries_list ++ [entry]))

/-- `get_all_hashes`: every line of the hash file that is nonempty after
stripping and does not start with `#`, in file order. -/
def get_all_hashes (contents : String) : List String :=
  (pySplitLines contents).foldl
    (fun hashes line =>
      let h := pyStrip line
      if h.data.isEmpty then hashes
      else if isCommentLine h then hashes
      else hashes ++ [h])
    []

/-- The pending subset for one mode (`main`, line 181):
`[h for h in all_hashes if (h, mode_id) not in already_cracked]`. -/
def pendingFor (all_hashes : List String) (mode_id : String)
    (already_cracked : List (String × String)) : List String :=
  all_hashes.filter fun h => !(already_cracked.contains (h, mode_id))

/-- `extract_cracked_from_pot`, pure part: parse the stdout of the
`--show` call.  Python strips the whole stdout, splits it into lines, and
for each line containing a colon emits the pair `line.split(":", 1)`.
(When the stripped stdout is empty, Python's `splitlines` gives no lines
while ours gives one empty line; an empty line has no colon, so the
result is `[]` either way.) -/
def extract_cracked_from_pot (stdout : String) : List (String × String) :=
  (pySplitLines (pyStrip stdout)).foldl
    (fun pairs line =>
      if containsColon line then pairs ++ [splitColonOnce line] else pairs)
    []

/-- The external tool as an oracle.  `attack m pending` is the exit-status
test of `run_hashcat_with_pot` (true iff exit code 0), and
`showOut m pending` is the stdout of the `--show` rerun, both for the
subset file holding `pending` and the run's fixed wordlist. -/
structure Oracle where
  attack : String → List String → Bool
  showOut : String → List String → String

/-- Per-mode outcome as reported by `main`: `[SKIPPED]`, `[NOT FOUND]`, or
`[FOUND]` with the extracted pairs. -/
inductive ModeOutcome where
  | skipped
  | notFound
  | found (pairs : List (String × String))
deriving DecidableEq, Repr

/-- Observable effects of processing one mode. -/
structure ModeTrace where
  mode_id : String
  pending : List String
  subset_written : Bool
  attack_run : Bool
  show_run : Bool
  outcome : ModeOutcome
  appended : List LogEntry
deriving DecidableEq, Repr

/-- The mutable state of `main` across the mode loop. -/
structure RunState where
  already_cracked : List (String × String)
  log_entries : List LogEntry
  disk : LedgerDisk
  cracked_summary : List (String × String × List (String × String))
  clock : Nat
deriving DecidableEq, Repr

/-- One iteration of the `for h, clear in pairs` loop (`main`, lines
208-218): build the entry with the current timestamp, `append_log` it, and
append `(mode_id, mode_name, pairs)` to `cracked_summary` — the source
performs this last append inside the per-pair loop. -/
def logStep (now : Nat → String) (mode_id mode_name : String)
    (pairs : List (String × String)) (s : RunState) (hc : String × String) :
    RunState :=
  let entry : LogEntry := ⟨hc.1, mode_id, hc.2, now s.clock⟩
  let written := append_log s.log_entries entry
  { already_cracked := s.already_cracked
    log_entries := written.1
    disk := written.2
    cracked_summary := s.cracked_summary ++ [(mode_id, mode_name, pairs)]
    clock := s.clock + 1 }

/-- The whole per-pair loop for one successful mode. -/
def logPairs (now : Nat → String) (mode_id mode_name : String)
    (pairs : List (String × String)) (st : RunState) : RunState :=
  pairs.foldl (logStep now mode_id mode_name pairs) st

/-- One iteration of the mode loop (`main`, lines 179-230): compute the
pending subset; skip when it is empty; otherwise write the subset file,
run the attack, and on success extract and log the cracked pairs.  The
trace records which ephemeral resources and tool calls happened. -/
def processMode (now : Nat → String) (oracle : Oracle)
    (all_hashes : List String) (st : RunState) (mode : String × String) :
    RunState × ModeTrace :=
  let pending := pendingFor all_hashes mode.1 st.already_cracked
  if pending.isEmpty then
    (st, ⟨mode.1, pending, false, false, false, ModeOutcome.skipped, []⟩)
  else if oracle.attack mode.1 pending then
    let pairs := extract_cracked_from_pot (oracle.showOut mode.1 pending)
    let st' := logPairs now mode.1 mode.2 pairs st
    (st', ⟨mode.1, pending, true, true, true, ModeOutcome.found pairs,
           st'.log_entries.drop st.log_entries.length⟩)
  else
    (st, ⟨mode.1, pending, true, true, false, ModeOutcome.notFound, []⟩)

/-- The full mode loop, collecting the per-mode traces. -/
def runModes (now : Nat → String) (oracle : Oracle)
    (all_hashes : List String) (st : RunState)
    (candidates : List (String × String)) : RunState × List ModeTrace :=
  candidates.foldl
    (fun acc mode =>
      let step := processMode now oracle all_hashes acc.1 mode
      (step.1, acc.2 ++ [step.2]))
    (st, [])

/-- The environment of one program run.  The two CLI operands are given as
file contents (`none`: no such file; `some ""`: exists with size 0), so
`validate_args` is modelled on a correctly-formed command line — the
`len(sys.argv) != 3` usage check is part of CLI parsing and outside the
embedding.  `candidate_modes` is the list `get_candidate_modes` parses out
of the enumeration stdout (empty when no line matches the mode regex). -/
structure Env where
  hash_file : Option String
  wordlist : Option String
  hashcat_found : Bool
  candidate_modes : List (String × String)
  ledger : LedgerDisk
  now : Nat → String
  oracle : Oracle

/-- `os.path.isfile f && os.path.getsize f != 0` for a modelled file. -/
def fileOk : Option String → Bool
  | none => false
  | some c => !(c == "")

/-- The state of `main` right after `load_log_entries` (line 159). -/
def startState (env : Env) : RunState :=
  ⟨(load_log_entries env.ledger).1, (load_log_entries env.ledger).2,
   env.ledger, [], 0⟩

/-- Result of a run: the process exit code, the final state, and the
per-mode traces. -/
structure RunResult where
  exitCode : Nat
  final : RunState
  traces : List ModeTrace
deriving DecidableEq, Repr

/-- `main`: validate the two files (exit 1), load the ledger, enumerate
modes (exit 1 when `hashcat` is missing or no mode parses), read the
hashes, run the mode loop, print the summary, and exit 0 — on both
summary branches (lines 236 and 245). -/
def runMain (env : Env) : RunResult :=
  if !fileOk env.hash_file then ⟨1, startState env, []⟩
  else if !fileOk env.wordlist then ⟨1, startState env, []⟩
  else if !env.hashcat_found then ⟨1, startState env, []⟩
  else if env.candidate_modes.isEmpty then ⟨1, startState env, []⟩
  else
    let all_hashes := get_all_hashes (env.hash_file.getD "")
    let result := runModes env.now env.oracle all_hashes (startState env)
      env.candidate_modes
    ⟨0, result.1, result.2⟩

/-- The entries appended during a run: the final entry list beyond the
prefix loaded at startup. -/
def newEntries (env : Env) : List LogEntry :=
  (runMain env).final.log_entries.drop (load_log_entries env.ledger).2.length

/-- The same invocation again, with the ledger exactly as the first run
left it and nothing else changed. -/
def secondRunEnv (env : Env) : Env :=
  { env with ledger := (runMain env).final.disk }

/-- Write a ledger from scratch by `append_log`-ing each entry in turn,
starting from no file on disk. -/
def writeLedgerByAppends (es : List LogEntry) : List LogEntry × LedgerDisk :=
  es.foldl (fun acc e => append_log acc.1 e) ([], LedgerDisk.missing)

/-- The documented `--show` contract: every pair the extractor reads off
the show stdout names a hash from the subset file the tool was run on. -/
def OracleRespectsShow (o : Oracle) : Prop :=
  ∀ (m : String) (pending : List String),
    ∀ p ∈ extract_cracked_from_pot (o.showOut m pending), p.1 ∈ pending

/-- Concrete run with an empty starting ledger in which mode `0` cracks
the single hash `h`. -/
def envC2 : Env :=
  { hash_file := some "h\n"
    wordlist := some "w"
    hashcat_found := true
    candidate_modes := [("0", "MD5")]
    ledger := LedgerDisk.missing
    now := fun _ => "t"
    oracle := ⟨fun _ _ => true, fun _ _ => "h:p"⟩ }

/-- Concrete run in which mode `0` cracks both hashes of the corpus in a
single attempt. -/
def envC4 : Env :=
  { hash_file := some "h1\nh2\n"
    wordlist := some "w"
    hashcat_found := true
    candidate_modes := [("0", "MD5")]
    ledger := LedgerDisk.missing
    now := fun _ => "t"
    oracle := ⟨fun _ _ => true, fun _ _ => "h1:p1\nh2:p2"⟩ }

/-- Concrete run whose show stdout names the hash `a`, which is already in
the ledger for mode `0` and hence never in the pending subset. -/
def envC5 : Env :=
  { hash_file := some "a\nb\n"
    wordlist := some "w"
    hashcat_found := true
    candidate_modes := [("0", "MD5")]
    ledger := LedgerDisk.records [⟨"a", "0", "p0", "t0"⟩]
    now := fun _ => "t"
    oracle := ⟨fun _ _ => true, fun _ _ => "a:px"⟩ }

/-- Concrete run whose oracle obeys the show contract: it cracks `b` when
the pending subset is `[b, c]` and `c` when the pending subset is `[c]`. -/
def envW5 : Env :=
  { hash_file := some "b\nc\n"
    wordlist := some "w"
    hashcat_found := true
    candidate_modes := [("0", "MD5")]
    ledger := LedgerDisk.missing
    now := fun _ => "t"
    oracle :=
      ⟨fun _ _ => true,
       fun _ pending =>
         if pending = ["b", "c"] then "b:p"
         else if pending = ["c"] then "c:q"
         else ""⟩ }

/-- A mid-run state whose ledger key set already covers hash `a` for
mode `0`. -/
def stW9 : RunState :=
  ⟨[("a", "0")], [⟨"a", "0", "p", "t0"⟩],
   LedgerDisk.records [⟨"a", "0", "p", "t0"⟩], [], 0⟩

end AutoCrack

namespace AutoCrack

/-! ## Helper lemmas -/

/-- The extraction loop is the `filterMap` of the per-line parse over the
lines of the stripped stdout. -/
theorem extract_eq_filterMap (stdout : String) :
    extract_cracked_from_pot stdout
      = (pySplitLines (pyStrip stdout)).filterMap
          (fun l => if containsColon l then some (splitColonOnce l) else none) := by
  unfold extract_cracked_from_pot
  generalize pySplitLines (pyStrip stdout) = lines
  suffices h : ∀ (ls : List String) (acc : List (String × String)),
      ls.foldl
          (fun pairs line =>
            if containsColon line then pairs ++ [splitColonOnce line] else pairs)
          acc
        = acc ++ ls.filterMap
            (fun l => if containsColon l then some (splitColonOnce l) else none) by
    simpa using h lines []
  intro ls
  induction ls with
  | nil => intro acc; simp
  | cons l rest ih =>
    intro acc
    by_cases h : containsColon l
    · simp [h, ih]
    · simp [h, ih]

/-- Splitting a character list at its first colon: the prefix is
colon-free and the list is the prefix, the colon, then the suffix. -/
theorem colon_split_data (cs : List Char) (h : ':' ∈ cs) :
    cs = cs.takeWhile (fun c => c != ':')
          ++ ':' :: ((cs.dropWhile (fun c => c != ':')).drop 1)
    ∧ ':' ∉ cs.takeWhile (fun c => c != ':') := by
  induction cs with
  | nil => cases h
  | cons c rest ih =>
    by_cases hc : c = ':'
    · subst hc
      constructor
      · simp [List.takeWhile_cons, List.dropWhile_cons]
      · simp [List.takeWhile_cons]
    · have hb : (c != ':') = true := by simp [hc]
      have hm : ':' ∈ rest := by
        rcases List.mem_cons.mp h with h1 | h1
        · exact absurd h1.symm hc
        · exact h1
      obtain ⟨ih1, ih2⟩ := ih hm
      constructor
      · simp only [List.takeWhile_cons, List.dropWhile_cons, hb, if_true]
        conv_lhs => rw [ih1]
        rw [List.cons_append]
      · simp only [List.takeWhile_cons, hb, if_true]
        intro hmem
        rcases List.mem_cons.mp hmem with h1 | h1
        · exact hc h1.symm
        · exact ih2 h1

end AutoCrack

namespace AutoCrack

/-! ## Claim theorems: extraction and the pending set -/

/-- Claim C10: result extraction is total on arbitrary show output — it is
the per-line `filterMap` that keeps exactly the lines containing a colon,
and for such a line the emitted pair is the split at the first colon: the
line is the hash part, a colon, then the cleartext part, and the hash part
itself is colon-free.  Lines without a colon are silently dropped. -/
theorem extraction_total_on_show_output (stdout : String) :
    extract_cracked_from_pot stdout
        = (pySplitLines (pyStrip stdout)).filterMap
            (fun l => if containsColon l then some (splitColonOnce l) else none)
    ∧ ∀ l : String, containsColon l = true →
        l.data = (splitColonOnce l).1.data ++ ':' :: (splitColonOnce l).2.data
        ∧ ':' ∉ (splitColonOnce l).1.data := by
  refine ⟨extract_eq_filterMap stdout, ?_⟩
  intro l hl
  have hmem : ':' ∈ l.data := by
    have : l.data.contains ':' = true := hl
    exact List.elem_iff.mp this
  have h := colon_split_data l.data hmem
  exact ⟨h.1, h.2⟩

/-- Witness for C10 at the line `x:y:z`: the pair splits at the first
colon only. -/
theorem extraction_total_on_show_output_witness :
    "x:y:z".data
        = (splitColonOnce "x:y:z").1.data ++ ':' :: (splitColonOnce "x:y:z").2.data
    ∧ ':' ∉ (splitColonOnce "x:y:z").1.data :=
  (extraction_total_on_show_output "x:y:z").2 "x:y:z" (by decide)

/-- Claim C3 counterexample: the extractor performs no filtering against
the pending set.  With pending set `[h1]` (as computed by the pending-set
calculation on an empty ledger) and show stdout `evil:pw`, the extracted
list names the hash `evil`, which is not in the pending set. -/
theorem extraction_not_subset_cex :
    pendingFor ["h1"] "0" [] = ["h1"]
    ∧ extract_cracked_from_pot "evil:pw" = [("evil", "pw")]
    ∧ "evil" ∉ pendingFor ["h1"] "0" [] := by
  refine ⟨by decide, by decide, by decide⟩

/-- Claim C3 (amended): whenever every colon-containing line of the show
stdout has its first-colon prefix in the pending set — the documented show
contract — every pair returned by result extraction names a hash of the
pending set. -/
theorem extraction_subset_under_contract (stdout : String)
    (pending : List String)
    (hc : ∀ l ∈ pySplitLines (pyStrip stdout),
        containsColon l = true → (splitColonOnce l).1 ∈ pending) :
    ∀ p ∈ extract_cracked_from_pot stdout, p.1 ∈ pending := by
  intro p hp
  rw [extract_eq_filterMap] at hp
  rcases List.mem_filterMap.mp hp with ⟨l, hl, hf⟩
  by_cases h : containsColon l
  · rw [if_pos h] at hf
    cases hf
    exact hc l hl h
  · rw [if_neg h] at hf
    cases hf

/-- Witness for C3: with show stdout `h1:p` and pending set `[h1]` the
contract hypothesis holds and the extracted hash is in the pending set. -/
theorem extraction_subset_under_contract_witness :
    (∀ l ∈ pySplitLines (pyStrip "h1:p"),
        containsColon l = true → (splitColonOnce l).1 ∈ ["h1"])
    ∧ "h1" ∈ ["h1"] :=
  ⟨by decide,
   extraction_subset_under_contract "h1:p" ["h1"] (by decide) ("h1", "p")
     (by decide)⟩

/-- Claim C1: the pending subset for a mode is exactly the ordered
subsequence of `all_hashes` whose `(hash, mode)` key is not in the ledger
key set: it is the filter of `all_hashes` by non-membership, a sublist of
`all_hashes` (order preserved), contains a hash iff it occurs in
`all_hashes` and is not excluded, and keeps the exact multiplicity of
every non-excluded hash. -/
theorem pending_set_correct (all_hashes : List String) (m : String)
    (L : List (String × String)) :
    pendingFor all_hashes m L
        = all_hashes.filter (fun h => decide ((h, m) ∉ L))
    ∧ List.Sublist (pendingFor all_hashes m L) all_hashes
    ∧ (∀ h, h ∈ pendingFor all_hashes m L ↔ h ∈ all_hashes ∧ (h, m) ∉ L)
    ∧ ∀ h, (pendingFor all_hashes m L).count h
        = if (h, m) ∈ L then 0 else all_hashes.count h := by
  have hpt : ∀ h : String, (!(L.contains (h, m))) = decide ((h, m) ∉ L) := by
    intro h
    by_cases hm : (h, m) ∈ L
    · have h1 : L.contains (h, m) = true := List.elem_iff.mpr hm
      simp [h1, hm]
    · have h1 : L.contains (h, m) = false := by
        by_contra hcon
        exact hm (List.elem_iff.mp (eq_true_of_ne_false hcon))
      simp [h1, hm]
  have hfe : pendingFor all_hashes m L
      = all_hashes.filter (fun h => decide ((h, m) ∉ L)) := by
    unfold pendingFor
    exact List.filter_congr (fun a _ => hpt a)
  refine ⟨hfe, ?_, ?_, ?_⟩
  · exact List.filter_sublist all_hashes
  · intro h
    unfold pendingFor
    rw [List.mem_filter]
    constructor
    · rintro ⟨h1, h2⟩
      rw [hpt h] at h2
      exact ⟨h1, of_decide_eq_true h2⟩
    · rintro ⟨h1, h2⟩
      refine ⟨h1, ?_⟩
      rw [hpt h]
      exact decide_eq_true h2
  · intro h
    rw [hfe]
    by_cases hm : (h, m) ∈ L
    · rw [if_pos hm]
      rw [List.count_eq_zero]
      intro hcon
      rw [List.mem_filter] at hcon
      exact absurd hm (of_decide_eq_true hcon.2)
    · rw [if_neg hm]
      exact List.count_filter (by simpa using hm)

end AutoCrack

namespace AutoCrack

/-! ## Helper lemmas about the mode loop -/

/-- The per-pair logging loop never touches the derived membership set. -/
theorem logSteps_already (now : Nat → String) (mode_id mode_name : String)
    (pairs : List (String × String)) :
    ∀ (ps : List (String × String)) (st : RunState),
      (ps.foldl (logStep now mode_id mode_name pairs) st).already_cracked
        = st.already_cracked := by
  intro ps
  induction ps with
  | nil => intro st; rfl
  | cons p rest ih =>
    intro st
    rw [List.foldl_cons, ih]
    rfl

/-- The per-pair logging loop appends entries at the end of the entry
list, each carrying the mode id and a hash from the pair list. -/
theorem logSteps_entries (now : Nat → String) (mode_id mode_name : String)
    (pairs : List (String × String)) :
    ∀ (ps : List (String × String)) (st : RunState),
      ∃ ns : List LogEntry,
        (ps.foldl (logStep now mode_id mode_name pairs) st).log_entries
            = st.log_entries ++ ns
        ∧ ∀ e ∈ ns, e.mode_id = mode_id ∧ e.hash ∈ ps.map Prod.fst := by
  intro ps
  induction ps with
  | nil => intro st; exact ⟨[], by simp⟩
  | cons p rest ih =>
    intro st
    rw [List.foldl_cons]
    obtain ⟨ns, hns, hall⟩ := ih (logStep now mode_id mode_name pairs st p)
    refine ⟨⟨p.1, mode_id, p.2, now st.clock⟩ :: ns, ?_, ?_⟩
    · rw [hns]
      show st.log_entries ++ [(⟨p.1, mode_id, p.2, now st.clock⟩ : LogEntry)] ++ ns
          = st.log_entries ++ ⟨p.1, mode_id, p.2, now st.clock⟩ :: ns
      rw [List.append_assoc]
      rfl
    · intro e he
      rcases List.mem_cons.mp he with h1 | h1
      · subst h1
        exact ⟨rfl, by simp⟩
      · obtain ⟨h2, h3⟩ := hall e h1
        exact ⟨h2, by simp; right; simpa using h3⟩

/-- Processing one mode never touches the derived membership set. -/
theorem processMode_already (now : Nat → String) (oracle : Oracle)
    (all_hashes : List String) (st : RunState) (mode : String × String) :
    (processMode now oracle all_hashes st mode).1.already_cracked
      = st.already_cracked := by
  unfold processMode
  by_cases h1 : (pendingFor all_hashes mode.1 st.already_cracked).isEmpty
  · simp [h1]
  · by_cases h2 : oracle.attack mode.1 (pendingFor all_hashes mode.1 st.already_cracked)
    · simp only [h1, h2, Bool.false_eq_true, if_false, if_true]
      exact logSteps_already now mode.1 mode.2 _ _ st
    · simp [h1, h2]

/-- The state after the mode loop is the fold of the per-mode state
transition; the trace accumulator does not influence it. -/
theorem runModes_fst (now : Nat → String) (oracle : Oracle)
    (all_hashes : List String) :
    ∀ (candidates : List (String × String)) (st : RunState)
      (ts : List ModeTrace),
      (candidates.foldl
          (fun acc mode =>
            let step := processMode now oracle all_hashes acc.1 mode
            (step.1, acc.2 ++ [step.2]))
          (st, ts)).1
        = candidates.foldl
            (fun s mode => (processMode now oracle all_hashes s mode).1) st := by
  intro candidates
  induction candidates with
  | nil => intro st ts; rfl
  | cons m rest ih =>
    intro st ts
    rw [List.foldl_cons, List.foldl_cons]
    exact ih _ _

/-- The mode loop never touches the derived membership set. -/
theorem runModes_already (now : Nat → String) (oracle : Oracle)
    (all_hashes : List String) (st : RunState)
    (candidates : List (String × String)) :
    (runModes now oracle all_hashes st candidates).1.already_cracked
      = st.already_cracked := by
  unfold runModes
  rw [runModes_fst]
  induction candidates generalizing st with
  | nil => rfl
  | cons m rest ih =>
    rw [List.foldl_cons, ih, processMode_already]

end AutoCrack

namespace AutoCrack

/-! ## Claim theorems: the derived key set, skipping, and the summary -/

/-- Claim C2 counterexample: with an empty starting ledger, mode `0`
cracks hash `h` and appends the entry for key `(h, 0)`, yet at the end of
the run the derived membership set is still empty — the appended key is
never added to it, so the derived set is not the startup keys plus the
keys appended so far. -/
theorem derived_set_stale_cex :
    ("h", "0") ∈ (runMain envC2).final.log_entries.map key
    ∧ ("h", "0") ∉ (runMain envC2).final.already_cracked := by
  refine ⟨by decide, by decide⟩

/-- Claim C2 (amended): at every point during a run the derived membership
set equals exactly the key set loaded at startup — processing a mode never
changes it, and the final derived set of any run is the loaded one.
Appends extend the entry sequence and the on-disk ledger but never update
the in-memory derived set. -/
theorem derived_set_never_updated :
    (∀ (now : Nat → String) (oracle : Oracle) (all_hashes : List String)
        (st : RunState) (mode : String × String),
        (processMode now oracle all_hashes st mode).1.already_cracked
          = st.already_cracked)
    ∧ ∀ env : Env,
        (runMain env).final.already_cracked = (load_log_entries env.ledger).1 := by
  refine ⟨processMode_already, ?_⟩
  intro env
  by_cases h1 : fileOk env.hash_file <;>
    by_cases h2 : fileOk env.wordlist <;>
      by_cases h3 : env.hashcat_found <;>
        by_cases h4 : env.candidate_modes.isEmpty <;>
          simp [runMain, h1, h2, h3, h4, startState, runModes_already]

/-- Claim C9: a mode whose pending subset is empty is skipped entirely —
no subset file, no attack or show invocation, no appended entries, the
state is returned unchanged (so the loop just moves on: dropping the mode
from the candidate list gives the same final state), and the outcome is
the skip report, which is distinct from the not-found report of an
attempted mode. -/
theorem empty_pending_skips (now : Nat → String) (oracle : Oracle)
    (all_hashes : List String) (st : RunState) (mode : String × String)
    (rest : List (String × String))
    (h : pendingFor all_hashes mode.1 st.already_cracked = []) :
    processMode now oracle all_hashes st mode
        = (st, ⟨mode.1, [], false, false, false, ModeOutcome.skipped, []⟩)
    ∧ (runModes now oracle all_hashes st (mode :: rest)).1
        = (runModes now oracle all_hashes st rest).1
    ∧ ModeOutcome.skipped ≠ ModeOutcome.notFound := by
  have hp : processMode now oracle all_hashes st mode
      = (st, ⟨mode.1, [], false, false, false, ModeOutcome.skipped, []⟩) := by
    unfold processMode
    rw [h]
    rfl
  refine ⟨hp, ?_, by decide⟩
  unfold runModes
  rw [runModes_fst, runModes_fst, List.foldl_cons, hp]

/-- Witness for C9: hash `a` is already in the ledger keys for mode `0`,
so the pending subset is empty and the mode is skipped with the state
unchanged. -/
theorem empty_pending_skips_witness :
    pendingFor ["a"] "0" stW9.already_cracked = []
    ∧ processMode (fun _ => "t") ⟨fun _ _ => true, fun _ _ => "a:p"⟩ ["a"]
        stW9 ("0", "MD5")
        = (stW9, ⟨"0", [], false, false, false, ModeOutcome.skipped, []⟩) :=
  ⟨by decide,
   (empty_pending_skips (fun _ => "t") ⟨fun _ _ => true, fun _ _ => "a:p"⟩
     ["a"] stW9 ("0", "MD5") [] (by decide)).1⟩

/-- Claim C4 evaluated at the failing input: in `envC4` the single mode
`0` cracks the two hashes `h1`, `h2` in one attempt (one `found` trace
with two extracted pairs), yet the end-of-run summary holds two identical
records for that mode — `cracked_summary.append` sits inside the per-pair
loop, so a mode cracking k hashes contributes k records, not one. -/
theorem summary_record_per_pair :
    (runMain envC4).traces
        = [⟨"0", ["h1", "h2"], true, true, true,
            ModeOutcome.found [("h1", "p1"), ("h2", "p2")],
            [⟨"h1", "0", "p1", "t"⟩, ⟨"h2", "0", "p2", "t"⟩]⟩]
    ∧ (runMain envC4).final.cracked_summary
        = [("0", "MD5", [("h1", "p1"), ("h2", "p2")]),
           ("0", "MD5", [("h1", "p1"), ("h2", "p2")])] := by
  refine ⟨by decide, by decide⟩

end AutoCrack

namespace AutoCrack

/-! ## Helper lemmas about fresh entries under the show contract -/

/-- A hash in the pending subset is, with this mode, not in the derived
key set. -/
theorem mem_pendingFor_not_already (all_hashes : List String) (m : String)
    (already : List (String × String)) (h : String)
    (hmem : h ∈ pendingFor all_hashes m already) : (h, m) ∉ already := by
  unfold pendingFor at hmem
  have h2 := (List.mem_filter.mp hmem).2
  intro hc
  have h3 : already.contains (h, m) = true := List.elem_iff.mpr hc
  rw [h3] at h2
  simp at h2

/-- Under the show contract, processing one mode only appends entries
whose key is not in the current derived key set. -/
theorem processMode_entries_fresh (now : Nat → String) (oracle : Oracle)
    (ho : OracleRespectsShow oracle) (all_hashes : List String)
    (st : RunState) (mode : String × String) :
    ∃ ns : List LogEntry,
      (processMode now oracle all_hashes st mode).1.log_entries
          = st.log_entries ++ ns
      ∧ ∀ e ∈ ns, key e ∉ st.already_cracked := by
  unfold processMode
  by_cases h1 : (pendingFor all_hashes mode.1 st.already_cracked).isEmpty
  · refine ⟨[], ?_, by simp⟩
    simp [h1]
  · by_cases h2 : oracle.attack mode.1 (pendingFor all_hashes mode.1 st.already_cracked)
    · simp only [h1, h2, Bool.false_eq_true, if_false, if_true]
      obtain ⟨ns, hns, hall⟩ :=
        logSteps_entries now mode.1 mode.2
          (extract_cracked_from_pot
            (oracle.showOut mode.1 (pendingFor all_hashes mode.1 st.already_cracked)))
          (extract_cracked_from_pot
            (oracle.showOut mode.1 (pendingFor all_hashes mode.1 st.already_cracked)))
          st
      refine ⟨ns, hns, ?_⟩
      intro e he
      obtain ⟨hmode, hhash⟩ := hall e he
      obtain ⟨p, hp, hpe⟩ := List.mem_map.mp hhash
      have hpend := ho mode.1 (pendingFor all_hashes mode.1 st.already_cracked) p hp
      have hnot := mem_pendingFor_not_already all_hashes mode.1 st.already_cracked p.1 hpend
      unfold key
      rw [hmode, ← hpe]
      exact hnot
    · refine ⟨[], ?_, by simp⟩
      simp [h1, h2]

/-- Under the show contract, the whole mode loop only appends entries
whose key is not in the derived key set it started from. -/
theorem runModes_entries_fresh (now : Nat → String) (oracle : Oracle)
    (ho : OracleRespectsShow oracle) (all_hashes : List String) :
    ∀ (candidates : List (String × String)) (st : RunState),
      ∃ ns : List LogEntry,
        (runModes now oracle all_hashes st candidates).1.log_entries
            = st.log_entries ++ ns
        ∧ ∀ e ∈ ns, key e ∉ st.already_cracked := by
  intro candidates
  induction candidates with
  | nil => intro st; exact ⟨[], by simp [runModes], by simp⟩
  | cons m rest ih =>
    intro st
    have hcons : (runModes now oracle all_hashes st (m :: rest)).1
        = (runModes now oracle all_hashes
            (processMode now oracle all_hashes st m).1 rest).1 := by
      unfold runModes
      rw [runModes_fst, runModes_fst, List.foldl_cons]
    rw [hcons]
    obtain ⟨n1, hn1, h1⟩ := processMode_entries_fresh now oracle ho all_hashes st m
    obtain ⟨n2, hn2, h2⟩ := ih (processMode now oracle all_hashes st m).1
    refine ⟨n1 ++ n2, ?_, ?_⟩
    · rw [hn2, hn1, List.append_assoc]
    · intro e he
      rcases List.mem_append.mp he with h3 | h3
      · exact h1 e h3
      · have h4 := h2 e h3
        rwa [processMode_already] at h4

/-- `main` either exits before the mode loop (final state is the startup
state) or runs the loop from the startup state. -/
theorem runMain_final_cases (env : Env) :
    (runMain env).final = startState env
    ∨ (runMain env).final
        = (runModes env.now env.oracle (get_all_hashes (env.hash_file.getD ""))
            (startState env) env.candidate_modes).1 := by
  unfold runMain
  by_cases h1 : fileOk env.hash_file
  · by_cases h2 : fileOk env.wordlist
    · by_cases h3 : env.hashcat_found
      · by_cases h4 : env.candidate_modes.isEmpty
        · left; simp [h1, h2, h3, h4]
        · right; simp [h1, h2, h3, h4]
      · left; simp [h1, h2, h3]
    · left; simp [h1, h2]
  · left; simp [h1]

/-- Under the show contract, every entry a run appends beyond the loaded
prefix has a key outside the loaded key set. -/
theorem run_new_entries_fresh (env : Env)
    (ho : OracleRespectsShow env.oracle) :
    ∀ e ∈ newEntries env, key e ∉ (load_log_entries env.ledger).1 := by
  have hstart1 : (startState env).log_entries = (load_log_entries env.ledger).2 := rfl
  have hstart2 : (startState env).already_cracked = (load_log_entries env.ledger).1 := rfl
  intro e he
  unfold newEntries at he
  rcases runMain_final_cases env with hf | hf
  · rw [hf, hstart1, List.drop_length] at he
    cases he
  · obtain ⟨ns, hns, hall⟩ :=
      runModes_entries_fresh env.now env.oracle ho
        (get_all_hashes (env.hash_file.getD "")) env.candidate_modes
        (startState env)
    rw [hf, hns, hstart1, List.drop_left] at he
    have h4 := hall e he
    rwa [hstart2] at h4

end AutoCrack

namespace AutoCrack

/-! ## Claim theorems: idempotence, round trip, errors, exit codes -/

/-- Claim C5 counterexample: with an oracle whose show stdout names the
hash `a` — already in the ledger for mode `0`, hence never pending — the
second run appends a fresh entry for the key `(a, 0)` even though that key
is already present after the first run.  The claim fails for arbitrary
oracle behavior because extraction does not filter against the pending
set. -/
theorem rerun_relogs_cracked_key_cex :
    (newEntries (secondRunEnv envC5)).map key = [("a", "0")]
    ∧ ("a", "0") ∈ (load_log_entries (runMain envC5).final.disk).1 := by
  refine ⟨by decide, by decide⟩

/-- Claim C5 (amended): for every corpus, mode list, and oracle whose show
output names only hashes from the pending subset passed to it (the
documented show contract), running the orchestrator twice in succession
with the ledger unchanged between runs produces zero new second-run log
entries for any `(hash, mode_id)` key already present after the first
run. -/
theorem idempotent_under_contract (env : Env)
    (h : OracleRespectsShow env.oracle) :
    ∀ e ∈ newEntries (secondRunEnv env),
      key e ∉ (load_log_entries (runMain env).final.disk).1 :=
  run_new_entries_fresh (secondRunEnv env) h

/-- Witness for C5: in `envW5` the first run cracks `b` under mode `0` and
the second run cracks only the genuinely new key `(c, 0)`. -/
theorem idempotent_under_contract_witness :
    key (⟨"c", "0", "q", "t"⟩ : LogEntry)
      ∉ (load_log_entries (runMain envW5).final.disk).1 :=
  idempotent_under_contract envW5
    (by
      intro m pending p hp
      by_cases hb : pending = ["b", "c"]
      · subst hb
        have hs : envW5.oracle.showOut m ["b", "c"] = "b:p" := rfl
        rw [hs] at hp
        have hx : extract_cracked_from_pot "b:p" = [("b", "p")] := by decide
        rw [hx] at hp
        rcases List.mem_singleton.mp hp with rfl
        decide
      · by_cases hb2 : pending = ["c"]
        · subst hb2
          have hs : envW5.oracle.showOut m ["c"] = "c:q" := rfl
          rw [hs] at hp
          have hx : extract_cracked_from_pot "c:q" = [("c", "q")] := by decide
          rw [hx] at hp
          rcases List.mem_singleton.mp hp with rfl
          decide
        · have hs : envW5.oracle.showOut m pending = "" := by
            show (if pending = ["b", "c"] then "b:p"
              else if pending = ["c"] then "c:q" else "") = ""
            rw [if_neg hb, if_neg hb2]
          rw [hs] at hp
          have hx : extract_cracked_from_pot "" = [] := by decide
          rw [hx] at hp
          cases hp)
    ⟨"c", "0", "q", "t"⟩ (by decide)

end AutoCrack

namespace AutoCrack

/-- Folding `append_log` over a list of entries appends them all and, as
soon as one entry was written, leaves the full record list on disk. -/
theorem appends_fold (es : List LogEntry) :
    ∀ (l : List LogEntry) (d : LedgerDisk),
      es.foldl (fun acc e => append_log acc.1 e) (l, d)
        = (l ++ es,
           if es.isEmpty then d else LedgerDisk.records (l ++ es)) := by
  induction es with
  | nil => intro l d; simp
  | cons e rest ih =>
    intro l d
    rw [List.foldl_cons]
    show rest.foldl (fun acc e => append_log acc.1 e)
        (l ++ [e], LedgerDisk.records (l ++ [e])) = _
    rw [ih]
    rcases rest with _ | ⟨r, rs⟩ <;> simp

/-- Claim C6: writing any list of log entries to disk via `append_log` and
loading the result back yields exactly the written entry list and its
`(hash, mode_id)` key set. -/
theorem ledger_round_trip (es : List LogEntry) :
    load_log_entries (writeLedgerByAppends es).2 = (es.map key, es)
    ∧ ∀ k : String × String,
        k ∈ (load_log_entries (writeLedgerByAppends es).2).1 ↔ k ∈ es.map key := by
  have h : writeLedgerByAppends es
      = (es, if es.isEmpty then LedgerDisk.missing else LedgerDisk.records es) := by
    unfold writeLedgerByAppends
    rw [appends_fold]
    simp
  have h1 : load_log_entries (writeLedgerByAppends es).2 = (es.map key, es) := by
    rw [h]
    rcases es with _ | ⟨e, rest⟩
    · rfl
    · rfl
  exact ⟨h1, fun k => by rw [h1]⟩

/-- The exit code of `main` as a decision over the fatal conditions. -/
theorem runMain_exitCode (env : Env) :
    (runMain env).exitCode
      = if !fileOk env.hash_file then 1
        else if !fileOk env.wordlist then 1
        else if !env.hashcat_found then 1
        else if env.candidate_modes.isEmpty then 1
        else 0 := by
  unfold runMain
  by_cases h1 : fileOk env.hash_file <;>
    by_cases h2 : fileOk env.wordlist <;>
      by_cases h3 : env.hashcat_found <;>
        by_cases h4 : env.candidate_modes.isEmpty <;>
          simp [h1, h2, h3, h4]

/-- Claim C7: a missing ledger file and a ledger whose contents fail to
parse as the structured record list both load as the empty key set and
empty entry list, and the ledger state never influences the process exit
code — a corrupt or absent ledger is not fatal. -/
theorem corrupt_ledger_nonfatal :
    load_log_entries LedgerDisk.missing = ([], [])
    ∧ load_log_entries LedgerDisk.malformed = ([], [])
    ∧ ∀ (env : Env) (d d' : LedgerDisk),
        (runMain { env with ledger := d }).exitCode
          = (runMain { env with ledger := d' }).exitCode := by
  refine ⟨rfl, rfl, ?_⟩
  intro env d d'
  rw [runMain_exitCode, runMain_exitCode]

/-- Claim C8: the program exits with code 1 exactly when the hash file or
the wordlist is missing or empty, the external tool binary is not found,
or zero candidate modes are enumerated; otherwise it completes the mode
loop and exits with code 0, whether or not any hash was cracked. -/
theorem exit_code_contract (env : Env) :
    ((runMain env).exitCode = 1 ↔
        ((env.hash_file = none ∨ env.hash_file = some "")
          ∨ (env.wordlist = none ∨ env.wordlist = some "")
          ∨ env.hashcat_found = false
          ∨ env.candidate_modes = []))
    ∧ ((runMain env).exitCode = 0 ↔
        ¬((env.hash_file = none ∨ env.hash_file = some "")
          ∨ (env.wordlist = none ∨ env.wordlist = some "")
          ∨ env.hashcat_found = false
          ∨ env.candidate_modes = [])) := by
  have hfo : ∀ o : Option String, fileOk o = false ↔ (o = none ∨ o = some "") := by
    intro o
    rcases o with _ | c
    · simp [fileOk]
    · simp [fileOk]
  have hie : env.candidate_modes.isEmpty = true ↔ env.candidate_modes = [] :=
    List.isEmpty_iff
  rw [runMain_exitCode, ← hfo env.hash_file, ← hfo env.wordlist, ← hie]
  by_cases h1 : fileOk env.hash_file <;>
    by_cases h2 : fileOk env.wordlist <;>
      by_cases h3 : env.hashcat_found <;>
        by_cases h4 : env.candidate_modes.isEmpty <;>
          simp [h1, h2, h3, h4]

end AutoCrack
